import Mathlib

/-!
# Verification of the P2P shuffle engine (distributed/shuffle)

Shallow embedding of the worker-side P2P shuffle runtime:
* `_shuffle.py` — tabular shuffle (`split_by_worker`, `split_by_partition`,
  `DataFrameShuffleRun`),
* `_rechunk.py` — array rechunk (`split_axes`, `convert_chunk`,
  `ArrayRechunkRun`, `rechunk_p2p`),
* `_worker_plugin.py` — run registry (`_get_shuffle_run`, `shuffle_fail`).

Pure functions are translated to Lean functions; stateful methods become
explicit state-passing functions returning `Except` for the fallible paths.
Byte blobs, pickled payloads and the external concatenation routine are kept
abstract (type parameters), matching the spec's treatment of on-wire
serialization as opaque.
-/

namespace P2P

/-! ## Generic helpers -/

/-- Group a list into maximal runs of consecutive elements sharing the same
key.  This models the `np.where(codes[1:] != codes[:-1])`-based slicing used
by `split_by_worker` / `split_by_partition`: boundaries are placed exactly
where the (sorted) key changes, so each run is one shard. -/
def groupRuns {α : Type} (key : α → Nat) : List α → List (Nat × List α)
  | [] => []
  | a :: rest =>
    match groupRuns key rest with
    | [] => [(key a, [a])]
    | (k, g) :: gs =>
      if key a = k then (key a, a :: g) :: gs else (key a, [a]) :: (k, g) :: gs

theorem groupRuns_flatten {α : Type} (key : α → Nat) (l : List α) :
    ((groupRuns key l).map Prod.snd).flatten = l := by
  induction l with
  | nil => rfl
  | cons a rest ih =>
    rcases h : groupRuns key rest with _ | ⟨⟨k, g⟩, gs⟩
    · rw [h] at ih
      simp only [groupRuns, h]
      simpa using ih
    · rw [h] at ih
      simp only [groupRuns, h]
      by_cases hk : key a = k
      · simp only [if_pos hk]
        simpa using ih
      · simp only [if_neg hk]
        simpa using ih

theorem groupRuns_mem_key {α : Type} (key : α → Nat) (l : List α)
    {k : Nat} {g : List α} (hg : (k, g) ∈ groupRuns key l) :
    ∀ a ∈ g, key a = k := by
  induction l generalizing k g with
  | nil => simp [groupRuns] at hg
  | cons a rest ih =>
    rcases h : groupRuns key rest with _ | ⟨⟨k', g'⟩, gs⟩
    · simp only [groupRuns, h, List.mem_singleton, Prod.mk.injEq] at hg
      rcases hg with ⟨hk, hgl⟩
      subst hk; subst hgl
      intro b hb
      rcases List.mem_singleton.mp hb with rfl
      rfl
    · simp only [groupRuns, h] at hg
      have hmemrest : (k', g') ∈ groupRuns key rest := h ▸ List.mem_cons_self _ _
      by_cases hk : key a = k'
      · rw [if_pos hk] at hg
        rcases List.mem_cons.mp hg with heq | hmem
        · rcases Prod.mk.injEq .. ▸ heq with ⟨hkk, hgg⟩
          subst hkk; subst hgg
          intro b hb
          rcases List.mem_cons.mp hb with rfl | hb'
          · rfl
          · exact (ih hmemrest b hb').trans hk.symm
        · exact ih (h ▸ List.mem_cons_of_mem _ hmem)
      · rw [if_neg hk] at hg
        rcases List.mem_cons.mp hg with heq | hmem
        · rcases Prod.mk.injEq .. ▸ heq with ⟨hkk, hgg⟩
          subst hkk; subst hgg
          intro b hb
          rcases List.mem_singleton.mp hb with rfl
          rfl
        · exact ih (h ▸ hmem)

theorem groupRuns_eq_nil_iff {α : Type} (key : α → Nat) (l : List α) :
    groupRuns key l = [] ↔ l = [] := by
  cases l with
  | nil => simp [groupRuns]
  | cons a rest =>
    simp only [groupRuns]
    constructor
    · intro h
      rcases hg : groupRuns key rest with _ | ⟨⟨k, g⟩, gs⟩ <;> rw [hg] at h
      · simp at h
      · by_cases hk : key a = k <;> simp [hk] at h
    · intro h; exact absurd h (List.cons_ne_nil a rest)

theorem groupRuns_cons_head {α : Type} (key : α → Nat) (c : α) (t : List α) :
    ∃ g gs, groupRuns key (c :: t) = (key c, g) :: gs := by
  rcases h : groupRuns key t with _ | ⟨⟨k, g⟩, gs⟩
  · exact ⟨[c], [], by simp [groupRuns, h]⟩
  · by_cases hk : key c = k
    · exact ⟨c :: g, gs, by simp [groupRuns, h, hk]⟩
    · exact ⟨[c], (k, g) :: gs, by simp [groupRuns, h, hk]⟩

theorem lookup_cons_eq {β : Type} (k k' : Nat) (v : β) (es : List (Nat × β))
    (h : k = k') : List.lookup k ((k', v) :: es) = some v := by
  subst h; simp [List.lookup]

theorem lookup_cons_ne {β : Type} (k k' : Nat) (v : β) (es : List (Nat × β))
    (h : k ≠ k') : List.lookup k ((k', v) :: es) = List.lookup k es := by
  simp [List.lookup, beq_eq_false_iff_ne.mpr h]

/-- On a list sorted by `key`, the run found under key `k` is exactly the
sublist of elements whose key is `k`. -/
theorem groupRuns_lookup_eq_filter {α : Type} (key : α → Nat) (k : Nat)
    (l : List α) (hs : l.Pairwise (fun a b => key a ≤ key b)) :
    ((groupRuns key l).lookup k).getD [] = l.filter (fun a => key a == k) := by
  induction l with
  | nil => rfl
  | cons a rest ih =>
    rcases List.pairwise_cons.mp hs with ⟨ha, hrest⟩
    have ihr := ih hrest
    rcases h : groupRuns key rest with _ | ⟨⟨k', g'⟩, gs⟩
    · have hrnil : rest = [] := (groupRuns_eq_nil_iff key rest).mp h
      subst hrnil
      by_cases hak : key a = k
      · rw [show groupRuns key [a] = [(key a, [a])] from rfl,
          lookup_cons_eq k (key a) _ _ hak.symm]
        simp [List.filter, hak]
      · rw [show groupRuns key [a] = [(key a, [a])] from rfl,
          lookup_cons_ne k (key a) _ _ (Ne.symm hak)]
        simp [List.filter, beq_eq_false_iff_ne.mpr hak]
    · rw [h] at ihr
      by_cases hk : key a = k'
      · rw [show groupRuns key (a :: rest) = (key a, a :: g') :: gs by
          simp [groupRuns, h, hk]]
        by_cases hak : key a = k
        · rw [lookup_cons_eq k (key a) _ _ hak.symm]
          rw [lookup_cons_eq k k' _ _ (hak.symm.trans hk)] at ihr
          simp only [Option.getD_some] at ihr ⊢
          simp [List.filter_cons, beq_iff_eq.mpr hak, ihr]
        · have hkk' : k ≠ k' := fun hkk => hak (hk.trans hkk.symm)
          rw [lookup_cons_ne k (key a) _ _ (Ne.symm hak)]
          rw [lookup_cons_ne k k' _ _ hkk'] at ihr
          rw [List.filter_cons, show (key a == k) = false
            from beq_eq_false_iff_ne.mpr hak]
          simpa using ihr
      · rw [show groupRuns key (a :: rest) = (key a, [a]) :: (k', g') :: gs by
          simp [groupRuns, h, hk]]
        by_cases hak : key a = k
        · -- new singleton run for `a`; no later element can share its key
          rcases rest with _ | ⟨c, t⟩
          · simp [groupRuns] at h
          · obtain ⟨g0, gs0, hhead⟩ := groupRuns_cons_head key c t
            rw [h] at hhead
            have hk'c : k' = key c := by
              injection hhead with h1 _
              exact congrArg Prod.fst h1
            have hfilter : List.filter (fun b => key b == k) (c :: t) = [] := by
              apply List.filter_eq_nil_iff.mpr
              intro b hb
              simp only [beq_iff_eq]
              intro hbk
              have hac : key a ≤ key c := ha c (List.mem_cons_self _ _)
              have hcb : key c ≤ key b := by
                rcases List.mem_cons.mp hb with rfl | hbt
                · exact le_refl _
                · exact (List.pairwise_cons.mp hrest).1 b hbt
              have hca : key c = key a := by omega
              exact hk (hca.symm.trans hk'c.symm)
            rw [lookup_cons_eq k (key a) _ _ hak.symm]
            rw [List.filter_cons, show (key a == k) = true
              from beq_iff_eq.mpr hak, hfilter]
            rfl
        · rw [lookup_cons_ne k (key a) _ _ (Ne.symm hak)]
          rw [List.filter_cons, show (key a == k) = false
            from beq_eq_false_iff_ne.mpr hak]
          simpa using ihr

theorem beq_eq_decide (a b : Nat) : (a == b) = decide (a = b) := by
  by_cases h : a = b <;> simp [h]

/-- Partition of a multiset by a `Nat` key with values below `n`. -/
theorem sum_filter_eq_self {α : Type} (key : α → Nat) (n : Nat)
    (s : Multiset α) (h : ∀ x ∈ s, key x < n) :
    (∑ j ∈ Finset.range n, s.filter (fun x => key x = j)) = s := by
  induction s using Multiset.induction with
  | empty => simp
  | cons a t ih =>
    have ha : key a < n := h a (Multiset.mem_cons_self a t)
    have ht : ∀ x ∈ t, key x < n := fun x hx => h x (Multiset.mem_cons_of_mem hx)
    calc ∑ j ∈ Finset.range n, Multiset.filter (fun x => key x = j) (a ::ₘ t)
        = ∑ j ∈ Finset.range n,
            ((if key a = j then {a} else 0)
              + Multiset.filter (fun x => key x = j) t) :=
          Finset.sum_congr rfl fun j _ => Multiset.filter_cons t
      _ = (∑ j ∈ Finset.range n, if key a = j then ({a} : Multiset α) else 0)
            + ∑ j ∈ Finset.range n, Multiset.filter (fun x => key x = j) t :=
          Finset.sum_add_distrib
      _ = {a} + t := by
          rw [Finset.sum_ite_eq (Finset.range n) (key a)
            (fun _ => ({a} : Multiset α)), if_pos (Finset.mem_range.mpr ha), ih ht]
      _ = a ::ₘ t := by rw [← Multiset.singleton_add]

theorem pairwise_key_mergeSort {α : Type} (key : α → Nat) (l : List α) :
    (l.mergeSort fun a b => decide (key a ≤ key b)).Pairwise
      (fun a b => key a ≤ key b) := by
  have h := @List.sorted_mergeSort _ (fun a b => decide (key a ≤ key b))
    (fun a b c hab hbc => by
      simp only [decide_eq_true_eq] at hab hbc ⊢; omega)
    (fun a b => by simpa using Nat.le_total (key a) (key b)) l
  exact h.imp (by simp)

theorem lookup_map_val {β γ : Type} (f : β → γ) (gs : List (Nat × β)) (k : Nat) :
    ((gs.map fun g => (g.1, f g.2)).lookup k) = (gs.lookup k).map f := by
  induction gs with
  | nil => rfl
  | cons g rest ih =>
    by_cases hk : k = g.1
    · rw [List.map_cons, lookup_cons_eq k g.1 _ _ hk, lookup_cons_eq k g.1 _ _ hk]
      rfl
    · rw [List.map_cons, lookup_cons_ne k g.1 _ _ hk, lookup_cons_ne k g.1 _ _ hk]
      exact ih

/-! ## Tabular shuffle: `split_by_worker` / `split_by_partition`
(src/distributed/shuffle/_shuffle.py) -/

/-- A row of a table: `payload` stands for the remaining cells, `colval` is
the value of the user's shuffle column `c`, and `part` is the value of the
engine's partitioning column (the index into `worker_for`), i.e. the
destination output partition of the row. -/
structure Row where
  payload : Nat
  colval : Nat
  part : Nat
deriving DecidableEq, Repr

/-- Modelled from the spec: the upstream compute framework maps each row to
one of `M` output partitions by hashing the designated column, storing
`hash(row[c]) mod M` in the partitioning column before `add_partition` runs
(that assignment lives outside this repository; _shuffle.py receives the
frame with it already applied). -/
def assignRow (hashf : Nat → Nat) (M : Nat) (u : Nat × Nat) : Row :=
  ⟨u.1, u.2, hashf u.2 % M⟩

def assignTable (hashf : Nat → Nat) (M : Nat) (T : List (List (Nat × Nat))) :
    List (List Row) :=
  T.map (List.map (assignRow hashf M))

/-- Source `split_by_worker` (_shuffle.py:267): inner-merge the frame with the
categorized `worker_for` series on the partitioning column, sort by the
category code, and cut the sorted table at code boundaries.  Category codes
are the ordinals of the sorted categories, so sorting by code orders rows by
destination worker address; the resulting dictionary maps each destination
address (`categories[code]`) to its contiguous shard.  Worker addresses are
modelled as naturals. -/
def split_by_worker (worker_for : List (Nat × Nat)) (df : List Row) :
    List (Nat × List Row) :=
  let merged : List (Row × Nat) :=
    df.filterMap fun r => (worker_for.lookup r.part).map fun w => (r, w)
  let sorted := merged.mergeSort fun a b => decide (a.2 ≤ b.2)
  (groupRuns (fun p => p.2) sorted).map fun g => (g.1, g.2.map Prod.fst)

/-- Source `split_by_partition` (_shuffle.py:314): sort the received table by the
partitioning column and cut at value boundaries; `dict(zip(partitions,
shards))` pairs the sorted unique values with the shards, which is exactly
the run decomposition of the sorted list. -/
def split_by_partition (t : List Row) : List (Nat × List Row) :=
  groupRuns (fun r => r.part) (t.mergeSort fun a b => decide (a.part ≤ b.part))

/-- The shard of one input partition destined for worker `w`. -/
def shardFor (worker_for : List (Nat × Nat)) (df : List Row) (w : Nat) :
    List Row :=
  ((split_by_worker worker_for df).lookup w).getD []

/-- The table accumulated on worker `w`: the concatenation of the shards sent
to `w` from every input partition (the receive path concatenates buffers
before regrouping). -/
def receivedTable (worker_for : List (Nat × Nat)) (T : List (List Row))
    (w : Nat) : List Row :=
  (T.map fun p => shardFor worker_for p w).flatten

/-- Output partition `j`: the group keyed `j` of `split_by_partition` run on
the owning worker's received table. -/
def outputPartition (worker_for : List (Nat × Nat)) (T : List (List Row))
    (j : Nat) : List Row :=
  match worker_for.lookup j with
  | none => []
  | some w =>
      ((split_by_partition (receivedTable worker_for T w)).lookup j).getD []

theorem merged_filter_map (worker_for : List (Nat × Nat)) (df : List Row)
    (w : Nat) :
    ((df.filterMap fun r => (worker_for.lookup r.part).map fun v => (r, v)).filter
        (fun p => p.2 == w)).map Prod.fst
      = df.filter fun r => worker_for.lookup r.part == some w := by
  induction df with
  | nil => rfl
  | cons r rest ih =>
    cases hw : worker_for.lookup r.part with
    | none => simp [List.filterMap_cons, hw, List.filter_cons, ih]
    | some v =>
      by_cases hv : v = w
      · subst hv
        simp [List.filterMap_cons, hw, List.filter_cons, ih]
      · have h1 : ((r, v).2 == w) = false := beq_eq_false_iff_ne.mpr hv
        have h2 : (some v == some w) = false :=
          beq_eq_false_iff_ne.mpr fun h => hv (Option.some.inj h)
        simp [List.filterMap_cons, hw, List.filter_cons, h1, h2, ih]

theorem shardFor_perm (worker_for : List (Nat × Nat)) (df : List Row)
    (w : Nat) :
    (shardFor worker_for df w).Perm
      (df.filter fun r => worker_for.lookup r.part == some w) := by
  unfold shardFor split_by_worker
  simp only [lookup_map_val]
  set merged : List (Row × Nat) :=
    df.filterMap fun r => (worker_for.lookup r.part).map fun v => (r, v) with hm
  set sorted := merged.mergeSort fun a b => decide (a.2 ≤ b.2) with hsorted
  have hgd : ∀ (o : Option (List (Row × Nat))),
      (o.map (List.map Prod.fst)).getD [] = (o.getD []).map Prod.fst := by
    intro o; cases o <;> rfl
  rw [hgd, groupRuns_lookup_eq_filter (fun p : Row × Nat => p.2) w sorted
    (pairwise_key_mergeSort (fun p : Row × Nat => p.2) merged)]
  have hperm : (sorted.filter fun p => p.2 == w).Perm
      (merged.filter fun p => p.2 == w) :=
    (List.mergeSort_perm merged _).filter _
  have hmap := hperm.map Prod.fst
  rw [merged_filter_map worker_for df w] at hmap
  exact hmap

theorem split_by_partition_lookup_perm (t : List Row) (j : Nat) :
    (((split_by_partition t).lookup j).getD []).Perm
      (t.filter fun r => r.part == j) := by
  unfold split_by_partition
  rw [groupRuns_lookup_eq_filter (fun r : Row => r.part) j _
    (pairwise_key_mergeSort (fun r : Row => r.part) t)]
  exact (List.mergeSort_perm t _).filter _

theorem receivedTable_perm (worker_for : List (Nat × Nat))
    (T : List (List Row)) (w : Nat) :
    (receivedTable worker_for T w).Perm
      (T.flatten.filter fun r => worker_for.lookup r.part == some w) := by
  unfold receivedTable
  induction T with
  | nil => rfl
  | cons p rest ih =>
    simp only [List.map_cons, List.flatten_cons, List.filter_append]
    exact (shardFor_perm worker_for p w).append ih

theorem outputPartition_perm (worker_for : List (Nat × Nat))
    (T : List (List Row)) (j w : Nat) (hw : worker_for.lookup j = some w) :
    (outputPartition worker_for T j).Perm
      (T.flatten.filter fun r => r.part == j) := by
  unfold outputPartition
  rw [hw]
  refine ((split_by_partition_lookup_perm _ j).trans
    ((receivedTable_perm worker_for T w).filter _)).trans ?_
  rw [List.filter_filter]
  refine List.Perm.of_eq (List.filter_congr fun r hr => ?_)
  by_cases hj : r.part = j
  · subst hj
    simp [hw]
  · simp [beq_eq_false_iff_ne.mpr hj]

theorem assignTable_mem (hashf : Nat → Nat) (M : Nat)
    (T : List (List (Nat × Nat))) (r : Row)
    (hr : r ∈ (assignTable hashf M T).flatten) :
    r.part = hashf r.colval % M := by
  rcases List.mem_flatten.mp hr with ⟨l, hl, hrl⟩
  rcases List.mem_map.mp hl with ⟨l0, _, rfl⟩
  rcases List.mem_map.mp hrl with ⟨u, _, rfl⟩
  rfl

theorem coe_filter_keyeq {α : Type} (key : α → Nat) (l : List α) (j : Nat) :
    (↑(l.filter fun x => key x == j) : Multiset α)
      = Multiset.filter (fun x => key x = j) (↑l : Multiset α) := by
  have h : (l.filter fun x => key x == j)
      = l.filter fun x => decide (key x = j) :=
    List.filter_congr fun x _ => beq_eq_decide (key x) j
  rw [Multiset.filter_coe, h]

/-- C1: Tabular round-trip.  For every table `T` (as `N` input partitions of
(payload, column-value) rows), hash function, `M ≥ 1`, and `worker_for`
covering all `M` output partitions: the multiset union of the output
partitions produced by `split_by_worker` on each input partition followed by
`split_by_partition` regrouping on each destination worker equals the
multiset of rows of `T`, and every row of output partition `j` has
destination bucket `hash(row[c]) mod M = j`. -/
theorem tabular_round_trip (hashf : Nat → Nat) (M : Nat)
    (worker_for : List (Nat × Nat)) (T : List (List (Nat × Nat)))
    (hM : 0 < M)
    (hcover : ∀ j, j < M → (worker_for.lookup j).isSome) :
    (∑ j ∈ Finset.range M,
        (↑(outputPartition worker_for (assignTable hashf M T) j) : Multiset Row))
      = (↑(assignTable hashf M T).flatten : Multiset Row)
    ∧ ∀ j : Nat, ∀ r ∈ outputPartition worker_for (assignTable hashf M T) j,
        hashf r.colval % M = j := by
  have hpart : ∀ r ∈ (assignTable hashf M T).flatten, r.part < M := by
    intro r hr
    rw [assignTable_mem hashf M T r hr]
    exact Nat.mod_lt _ hM
  constructor
  · have hsummand : ∀ j ∈ Finset.range M,
        (↑(outputPartition worker_for (assignTable hashf M T) j) : Multiset Row)
          = Multiset.filter (fun r => r.part = j)
              (↑(assignTable hashf M T).flatten : Multiset Row) := by
      intro j hj
      obtain ⟨w, hw⟩ := Option.isSome_iff_exists.mp
        (hcover j (Finset.mem_range.mp hj))
      rw [Multiset.coe_eq_coe.mpr
        (outputPartition_perm worker_for (assignTable hashf M T) j w hw)]
      exact coe_filter_keyeq Row.part _ j
    rw [Finset.sum_congr rfl hsummand]
    exact sum_filter_eq_self Row.part M _
      (fun r hr => hpart r (Multiset.mem_coe.mp hr))
  · intro j r hr
    cases hlw : worker_for.lookup j with
    | none =>
      unfold outputPartition at hr
      rw [hlw] at hr
      simp at hr
    | some w =>
      have hp := outputPartition_perm worker_for (assignTable hashf M T) j w hlw
      have hrf := hp.mem_iff.mp hr
      rcases List.mem_filter.mp hrf with ⟨hrall, hpj⟩
      have hpj' : r.part = j := by simpa using hpj
      rw [assignTable_mem hashf M T r hrall] at hpj'
      exact hpj'

/-- Witness for C1 at a concrete input: two output partitions over two
workers, identity hash, three rows in two input partitions. -/
theorem tabular_round_trip_witness :
    (∑ j ∈ Finset.range 2,
        (↑(outputPartition [(0, 5), (1, 7)]
          (assignTable (fun v => v) 2 [[(10, 0), (11, 1)], [(12, 2)]]) j)
          : Multiset Row))
      = (↑(assignTable (fun v => v) 2 [[(10, 0), (11, 1)], [(12, 2)]]).flatten
          : Multiset Row)
    ∧ ∀ j : Nat, ∀ r ∈ outputPartition [(0, 5), (1, 7)]
        (assignTable (fun v => v) 2 [[(10, 0), (11, 1)], [(12, 2)]]) j,
        (fun v => v) r.colval % 2 = j :=
  tabular_round_trip (fun v => v) 2 [(0, 5), (1, 7)]
    [[(10, 0), (11, 1)], [(12, 2)]] (by decide)
    (fun j hj => by interval_cases j <;> decide)

/-! ## Array rechunk: split planner (src/distributed/shuffle/_rechunk.py) -/

/-- A 1-D slice of an old chunk, in coordinates relative to that chunk
(`slice(start, stop)`). -/
structure Sl where
  left : Nat
  right : Nat
deriving DecidableEq, Repr

/-- Number of elements the slice selects. -/
def Sl.size (s : Sl) : Nat := s.right - s.left

/-- Sum of the first `i` entries of a chunking (global offset of chunk `i`). -/
def chunkOffset : List Nat → Nat → Nat
  | _, 0 => 0
  | [], _ + 1 => 0
  | c :: t, i + 1 => c + chunkOffset t i

/-- Modelled from the spec: the per-axis helper `dask.array.rechunk.old_to_new`
(imported by `split_axes`; its source lives outside this repository).  Per the
spec it computes, for each new chunk, the list of `(old_chunk_index,
slice_in_old)` records that exactly tile that new chunk: chunk `i0 + position`
of `old` contributes its overlap with the global interval `[a, b)` of the new
chunk, relative coordinates, empty overlaps omitted.  `off` is the global
offset of the first chunk of `old`. -/
def pieces1d (old : List Nat) (i0 off a b : Nat) : List (Nat × Sl) :=
  match old with
  | [] => []
  | c :: rest =>
    let s := max a off
    let e := min b (off + c)
    let tail := pieces1d rest (i0 + 1) (off + c) a b
    if s < e then (i0, ⟨s - off, e - off⟩) :: tail else tail

/-- Modelled from the spec: `old_to_new(old, new)` for one axis: for each new
chunk the records tiling it. -/
def one_axis_old_to_new (old new : List Nat) : List (List (Nat × Sl)) :=
  (List.range new.length).map fun k =>
    pieces1d old 0 0 (chunkOffset new k) (chunkOffset new (k + 1))

/-- Source `Split` (_rechunk.py:211): a slice of an old chunk that is concatenated
with other splits to create new chunk `chunk_index`, at position
`split_index` within that new chunk. -/
structure Split where
  chunk_index : Nat
  split_index : Nat
  slice : Sl
deriving DecidableEq, Repr

/-- The per-old-chunk accumulation loop of `split_axes` (_rechunk.py:256-262):
iterating new chunks in order and their records in order, append to the list
of `old_chunk_index` the `Split(new_chunk_index, split_index, slice)`.
Functionally: collect, in `(new_chunk, split)` order, the splits whose old
chunk is `i`. -/
def splitsForOldChunk (otn : List (List (Nat × Sl))) (i : Nat) : List Split :=
  (otn.enum.map fun kp =>
    kp.2.enum.filterMap fun sp =>
      if sp.2.1 = i then some ⟨kp.1, sp.1, sp.2.2⟩ else none).flatten

/-- One axis of `split_axes`: one `Split` list per old chunk, each sorted by
`slice.start` (Python `list.sort` with key, i.e. a stable sort). -/
def axisSplits (oldAx newAx : List Nat) : List (List Split) :=
  (List.range oldAx.length).map fun i =>
    (splitsForOldChunk (one_axis_old_to_new oldAx newAx) i).mergeSort
      fun s t => decide (s.slice.left ≤ t.slice.left)

/-- Source `split_axes` (_rechunk.py:235): per axis, one `Split` list per old chunk,
each sorted by `slice.start`. -/
def split_axes (old new : List (List Nat)) : List (List (List Split)) :=
  (old.zip new).map fun ax => axisSplits ax.1 ax.2

theorem chunkOffset_le_sum (l : List Nat) (i : Nat) :
    chunkOffset l i ≤ l.sum := by
  induction l generalizing i with
  | nil => cases i <;> simp [chunkOffset]
  | cons c t ih =>
    cases i with
    | zero => simp [chunkOffset]
    | succ i =>
      simp only [chunkOffset, List.sum_cons]
      exact Nat.add_le_add_left (ih i) c

theorem chunkOffset_succ (l : List Nat) (k : Nat) (hk : k < l.length) :
    chunkOffset l (k + 1) = chunkOffset l k + l.getD k 0 := by
  induction l generalizing k with
  | nil => simp at hk
  | cons c t ih =>
    cases k with
    | zero => simp [chunkOffset]
    | succ k =>
      simp only [chunkOffset, List.getD_cons_succ]
      rw [ih k (by simpa using hk)]
      omega

/-- The slice sizes of the records for interval `[a, b)` add up to the length
of the intersection of `[a, b)` with the span of `old`. -/
theorem pieces1d_size_sum (old : List Nat) (i0 off a b : Nat) :
    ((pieces1d old i0 off a b).map fun p => p.2.size).sum
      = min b (off + old.sum) - max a off := by
  induction old generalizing i0 off with
  | nil => simp [pieces1d]
  | cons c rest ih =>
    simp only [pieces1d]
    by_cases h : max a off < min b (off + c)
    · rw [if_pos h]
      simp only [List.map_cons, List.sum_cons]
      rw [ih (i0 + 1) (off + c)]
      simp only [Sl.size, List.sum_cons]
      omega
    · rw [if_neg h]
      rw [ih (i0 + 1) (off + c)]
      simp only [List.sum_cons]
      omega

/-- Every record of `pieces1d` has a nonempty slice. -/
theorem pieces1d_size_pos (old : List Nat) (i0 off a b : Nat) :
    ∀ p ∈ pieces1d old i0 off a b, 0 < p.2.size := by
  induction old generalizing i0 off with
  | nil => simp [pieces1d]
  | cons c rest ih =>
    simp only [pieces1d]
    by_cases h : max a off < min b (off + c)
    · rw [if_pos h]
      intro p hp
      rcases List.mem_cons.mp hp with rfl | hp'
      · simp only [Sl.size]
        omega
      · exact ih (i0 + 1) (off + c) p hp'
    · rw [if_neg h]
      exact ih (i0 + 1) (off + c)

/-- Every record of `pieces1d` points at an old chunk index in
`[i0, i0 + length)`. -/
theorem pieces1d_index_bound (old : List Nat) (i0 off a b : Nat) :
    ∀ p ∈ pieces1d old i0 off a b, i0 ≤ p.1 ∧ p.1 < i0 + old.length := by
  induction old generalizing i0 off with
  | nil => simp [pieces1d]
  | cons c rest ih =>
    simp only [pieces1d]
    by_cases h : max a off < min b (off + c)
    · rw [if_pos h]
      intro p hp
      rcases List.mem_cons.mp hp with rfl | hp'
      · exact ⟨Nat.le_refl _, by
          show i0 < i0 + (c :: rest).length
          simp only [List.length_cons]
          omega⟩
      · have := ih (i0 + 1) (off + c) p hp'
        simp only [List.length_cons]
        omega
    · rw [if_neg h]
      intro p hp
      have := ih (i0 + 1) (off + c) p hp
      simp only [List.length_cons]
      omega

/-! ### Gathering the splits of one new chunk across all old chunks -/

/-- All records of one axis as `(old_chunk_index, Split)` pairs, in
`(new_chunk, split)` order. -/
def taggedSplits (otn : List (List (Nat × Sl))) : List (Nat × Split) :=
  (otn.enum.map fun kp =>
    kp.2.enum.map fun sp => (sp.2.1, Split.mk kp.1 sp.1 sp.2.2)).flatten

/-- The splits contributed to new chunk `k`, in `split_index` order. -/
def blockSplits (otn : List (List (Nat × Sl))) (k : Nat) : List Split :=
  (otn.getD k []).enum.map fun sp => Split.mk k sp.1 sp.2.2

theorem filterMap_if_eq {β γ : Type} (key : β → Nat) (f : β → γ) (i : Nat)
    (l : List β) :
    l.filterMap (fun b => if key b = i then some (f b) else none)
      = ((l.map fun b => (key b, f b)).filter fun q => q.1 == i).map Prod.snd := by
  induction l with
  | nil => rfl
  | cons b t ih =>
    by_cases h : key b = i
    · simp [List.filterMap_cons, h, List.filter_cons, ih]
    · simp [List.filterMap_cons, h, List.filter_cons,
        beq_eq_false_iff_ne.mpr h, ih]

theorem filter_flatten_comm {α : Type} (p : α → Bool) (L : List (List α)) :
    L.flatten.filter p = (L.map (List.filter p)).flatten := by
  induction L with
  | nil => rfl
  | cons x t ih => simp [List.filter_append, ih]

theorem map_flatten_comm {α β : Type} (f : α → β) (L : List (List α)) :
    L.flatten.map f = (L.map (List.map f)).flatten := by
  induction L with
  | nil => rfl
  | cons x t ih => simp [ih]

theorem splitsForOldChunk_eq (otn : List (List (Nat × Sl))) (i : Nat) :
    splitsForOldChunk otn i
      = ((taggedSplits otn).filter fun q => q.1 == i).map Prod.snd := by
  unfold splitsForOldChunk taggedSplits
  rw [filter_flatten_comm, map_flatten_comm]
  congr 1
  rw [List.map_map, List.map_map]
  refine List.map_congr_left fun kp _ => ?_
  simp only [Function.comp_apply]
  exact filterMap_if_eq (fun sp : Nat × Nat × Sl => sp.2.1)
    (fun sp => Split.mk kp.1 sp.1 sp.2.2) i kp.2.enum

theorem taggedSplits_fst_lt (oldAx newAx : List Nat) :
    ∀ q ∈ taggedSplits (one_axis_old_to_new oldAx newAx), q.1 < oldAx.length := by
  intro q hq
  unfold taggedSplits at hq
  rcases List.mem_flatten.mp hq with ⟨blk, hblk, hqblk⟩
  rcases List.mem_map.mp hblk with ⟨⟨k, pieces⟩, hkp, rfl⟩
  rcases List.mem_map.mp hqblk with ⟨sp, hsp, rfl⟩
  have hmem : pieces ∈ one_axis_old_to_new oldAx newAx := by
    have h := List.mem_enum hkp
    exact h.2 ▸ List.getElem_mem h.1
  rcases List.mem_map.mp hmem with ⟨k', _, rfl⟩
  have hsp2 : sp.2 ∈ pieces1d oldAx 0 0 (chunkOffset newAx k')
      (chunkOffset newAx (k' + 1)) := by
    have h := List.mem_enum (x := sp.2) (i := sp.1) hsp
    exact h.2 ▸ List.getElem_mem h.1
  have := pieces1d_index_bound oldAx 0 0 _ _ sp.2 hsp2
  simpa using this.2

/-- The untagged record list of one axis. -/
theorem taggedSplits_map_snd (otn : List (List (Nat × Sl))) :
    (taggedSplits otn).map Prod.snd
      = (otn.enum.map fun kp =>
          kp.2.enum.map fun sp => Split.mk kp.1 sp.1 sp.2.2).flatten := by
  unfold taggedSplits
  rw [map_flatten_comm]
  congr 1
  rw [List.map_map]
  refine List.map_congr_left fun kp _ => ?_
  simp only [Function.comp_apply]
  rw [List.map_map]
  rfl

theorem filter_chunk_enumFrom (L : List (List (Nat × Sl))) (n k : Nat) :
    (((List.enumFrom n L).map fun kp =>
        kp.2.enum.map fun sp => Split.mk kp.1 sp.1 sp.2.2).flatten).filter
          (fun s => s.chunk_index == k)
      = if n ≤ k ∧ k < n + L.length then
          (L.getD (k - n) []).enum.map fun sp => Split.mk k sp.1 sp.2.2
        else [] := by
  induction L generalizing n with
  | nil =>
    rw [if_neg (by simp only [List.length_nil]; omega)]
    rfl
  | cons x t ih =>
    have hstep : List.enumFrom n (x :: t) = (n, x) :: List.enumFrom (n + 1) t :=
      rfl
    rw [hstep]
    simp only [List.map_cons, List.flatten_cons, List.filter_append]
    rw [ih (n + 1)]
    by_cases hnk : n = k
    · subst hnk
      have h1 : (x.enum.map fun sp => Split.mk n sp.1 sp.2.2).filter
          (fun s => s.chunk_index == n)
          = x.enum.map fun sp => Split.mk n sp.1 sp.2.2 :=
        List.filter_eq_self.mpr fun s hs => by
          rcases List.mem_map.mp hs with ⟨sp, _, rfl⟩
          exact beq_self_eq_true n
      rw [h1, if_neg (by omega),
        if_pos (⟨Nat.le_refl n, by simp only [List.length_cons]; omega⟩ :
          n ≤ n ∧ n < n + (x :: t).length)]
      simp
    · have h1 : (x.enum.map fun sp => Split.mk n sp.1 sp.2.2).filter
          (fun s => s.chunk_index == k) = [] :=
        List.filter_eq_nil_iff.mpr fun s hs => by
          rcases List.mem_map.mp hs with ⟨sp, _, rfl⟩
          simpa using hnk
      rw [h1]
      by_cases hc : n ≤ k ∧ k < n + (x :: t).length
      · have hc' : n + 1 ≤ k ∧ k < n + 1 + t.length := by
          simp only [List.length_cons] at hc
          omega
        rw [if_pos hc', if_pos hc]
        have hkn : k - n = (k - (n + 1)) + 1 := by omega
        rw [hkn, List.getD_cons_succ]
        simp
      · have hc' : ¬ (n + 1 ≤ k ∧ k < n + 1 + t.length) := by
          simp only [List.length_cons] at hc
          omega
        rw [if_neg hc', if_neg hc]
        simp

theorem multiset_filter_finsum {α : Type} (p : α → Prop) [DecidablePred p]
    (n : Nat) (g : Nat → Multiset α) :
    Multiset.filter p (∑ i ∈ Finset.range n, g i)
      = ∑ i ∈ Finset.range n, Multiset.filter p (g i) := by
  induction n with
  | zero => simp
  | succ n ih => rw [Finset.sum_range_succ, Finset.sum_range_succ,
      Multiset.filter_add, ih]

theorem multiset_map_finsum {α β : Type} (f : α → β)
    (n : Nat) (g : Nat → Multiset α) :
    Multiset.map f (∑ i ∈ Finset.range n, g i)
      = ∑ i ∈ Finset.range n, Multiset.map f (g i) := by
  induction n with
  | zero => simp
  | succ n ih => rw [Finset.sum_range_succ, Finset.sum_range_succ,
      Multiset.map_add, ih]

theorem coe_flatten_range {α : Type} (n : Nat) (f : Nat → List α) :
    (↑((List.range n).map f).flatten : Multiset α)
      = ∑ i ∈ Finset.range n, (↑(f i) : Multiset α) := by
  induction n with
  | zero => rfl
  | succ n ih =>
    rw [List.range_succ, Finset.sum_range_succ, ← ih]
    simp

theorem getD_map_range {α : Type} (n : Nat) (f : Nat → α) (k : Nat) (d : α)
    (hk : k < n) : ((List.range n).map f).getD k d = f k := by
  rw [List.getD_eq_getElem _ d (by simpa using hk)]
  simp

theorem one_axis_length (oldAx newAx : List Nat) :
    (one_axis_old_to_new oldAx newAx).length = newAx.length := by
  unfold one_axis_old_to_new
  simp

theorem one_axis_getD (oldAx newAx : List Nat) (k : Nat)
    (hk : k < newAx.length) :
    (one_axis_old_to_new oldAx newAx).getD k []
      = pieces1d oldAx 0 0 (chunkOffset newAx k) (chunkOffset newAx (k + 1)) := by
  unfold one_axis_old_to_new
  exact getD_map_range _ _ k [] hk

/-- The multiset of all splits of one axis equals the multiset of all
untagged records. -/
theorem axisSplits_flatten_coe (oldAx newAx : List Nat) :
    (↑(axisSplits oldAx newAx).flatten : Multiset Split)
      = ↑((taggedSplits (one_axis_old_to_new oldAx newAx)).map Prod.snd) := by
  unfold axisSplits
  rw [coe_flatten_range]
  have h1 : ∀ i ∈ Finset.range oldAx.length,
      (↑((splitsForOldChunk (one_axis_old_to_new oldAx newAx) i).mergeSort
        fun s t => decide (s.slice.left ≤ t.slice.left)) : Multiset Split)
      = Multiset.map Prod.snd
          (Multiset.filter (fun q => q.1 = i)
            (↑(taggedSplits (one_axis_old_to_new oldAx newAx))
              : Multiset (Nat × Split))) := by
    intro i _
    rw [Multiset.coe_eq_coe.mpr (List.mergeSort_perm _ _),
      splitsForOldChunk_eq, ← Multiset.map_coe,
      coe_filter_keyeq (fun q : Nat × Split => q.1) _ i]
  rw [Finset.sum_congr rfl h1, ← multiset_map_finsum,
    sum_filter_eq_self (fun q : Nat × Split => q.1) oldAx.length _
      (fun q hq => taggedSplits_fst_lt oldAx newAx q (Multiset.mem_coe.mp hq)),
    Multiset.map_coe]

/-- The splits gathered for new chunk `k` across all old chunks are, as a
multiset, exactly the records tiling that new chunk. -/
theorem axis_gather (oldAx newAx : List Nat) (k : Nat)
    (hk : k < newAx.length) :
    (↑((axisSplits oldAx newAx).flatten.filter fun s => s.chunk_index == k)
        : Multiset Split)
      = ↑(blockSplits (one_axis_old_to_new oldAx newAx) k) := by
  rw [coe_filter_keyeq (fun s : Split => s.chunk_index) _ k,
    axisSplits_flatten_coe,
    ← coe_filter_keyeq (fun s : Split => s.chunk_index)]
  congr 1
  rw [taggedSplits_map_snd]
  have henum : (one_axis_old_to_new oldAx newAx).enum
      = List.enumFrom 0 (one_axis_old_to_new oldAx newAx) := rfl
  rw [henum, filter_chunk_enumFrom,
    if_pos ⟨Nat.zero_le k, by rw [one_axis_length]; omega⟩]
  unfold blockSplits
  simp

theorem blockSplits_split_index (otn : List (List (Nat × Sl))) (k : Nat) :
    (blockSplits otn k).map (fun s => s.split_index)
      = List.range (otn.getD k []).length := by
  unfold blockSplits
  rw [List.map_map]
  exact (List.map_congr_left fun sp _ => rfl).trans
    (List.enum_map_fst (otn.getD k []))

theorem blockSplits_length (otn : List (List (Nat × Sl))) (k : Nat) :
    (blockSplits otn k).length = (otn.getD k []).length := by
  unfold blockSplits
  simp

theorem blockSplits_size_sum (oldAx newAx : List Nat) (k : Nat)
    (hk : k < newAx.length) (hsum : oldAx.sum = newAx.sum) :
    ((blockSplits (one_axis_old_to_new oldAx newAx) k).map
        fun s => s.slice.size).sum = newAx.getD k 0 := by
  unfold blockSplits
  rw [one_axis_getD oldAx newAx k hk, List.map_map]
  have hmm : ((pieces1d oldAx 0 0 (chunkOffset newAx k)
        (chunkOffset newAx (k + 1))).enum.map
          ((fun s : Split => s.slice.size)
            ∘ fun sp : Nat × Nat × Sl => Split.mk k sp.1 sp.2.2))
      = (pieces1d oldAx 0 0 (chunkOffset newAx k)
          (chunkOffset newAx (k + 1))).map (fun p => p.2.size) := by
    have hsnd := List.enum_map_snd (pieces1d oldAx 0 0 (chunkOffset newAx k)
      (chunkOffset newAx (k + 1)))
    calc ((pieces1d oldAx 0 0 (chunkOffset newAx k)
        (chunkOffset newAx (k + 1))).enum.map
          ((fun s : Split => s.slice.size)
            ∘ fun sp : Nat × Nat × Sl => Split.mk k sp.1 sp.2.2))
        = ((pieces1d oldAx 0 0 (chunkOffset newAx k)
            (chunkOffset newAx (k + 1))).enum.map
              ((fun p : Nat × Sl => p.2.size) ∘ Prod.snd)) :=
          List.map_congr_left fun sp _ => rfl
      _ = _ := by rw [← List.map_map, hsnd]
  rw [hmm, pieces1d_size_sum]
  have hble : chunkOffset newAx (k + 1) ≤ oldAx.sum :=
    hsum ▸ chunkOffset_le_sum newAx (k + 1)
  have hsucc := chunkOffset_succ newAx k hk
  omega

theorem split_axes_getD (old new : List (List Nat)) (a : Nat)
    (ha : a < old.length) (hb : a < new.length) :
    (split_axes old new).getD a []
      = axisSplits (old.getD a []) (new.getD a []) := by
  unfold split_axes
  induction old generalizing new a with
  | nil => simp at ha
  | cons o ot ih =>
    cases new with
    | nil => simp at hb
    | cons nw nt =>
      cases a with
      | zero => rfl
      | succ a =>
        simp only [List.zip_cons_cons, List.map_cons, List.getD_cons_succ]
        exact ih nt a (by simpa using ha) (by simpa using hb)

/-- The gathered splits of new chunk `k` on axis `a`. -/
def newChunkSplits (old new : List (List Nat)) (a k : Nat) : List Split :=
  ((split_axes old new).getD a []).flatten.filter fun s => s.chunk_index == k

/-- C2: `split_axes` structure and tiling.  For equal-length axis lists with
equal per-axis totals: one entry per axis, one `Split` list per old chunk,
each sorted (non-decreasingly) by `slice.start`; and per axis, the splits
assigned to new chunk `k` carry the split indices `0..count-1` (so, taken in
`split_index` order, they tile the chunk) and their slice sizes sum to the
size of new chunk `k`; every new chunk is covered this way. -/
theorem split_axes_tiling (old new : List (List Nat))
    (hlen : old.length = new.length)
    (hsum : ∀ a, a < old.length → (old.getD a []).sum = (new.getD a []).sum) :
    (split_axes old new).length = old.length
    ∧ (∀ a, a < old.length →
        ((split_axes old new).getD a []).length = (old.getD a []).length)
    ∧ (∀ a, ∀ lst ∈ (split_axes old new).getD a [],
        lst.Pairwise fun s t => s.slice.left ≤ t.slice.left)
    ∧ (∀ a, a < old.length → ∀ k, k < (new.getD a []).length →
        (↑((newChunkSplits old new a k).map fun s => s.split_index)
            : Multiset Nat)
          = (↑(List.range (newChunkSplits old new a k).length) : Multiset Nat)
        ∧ ((newChunkSplits old new a k).map fun s => s.slice.size).sum
          = (new.getD a []).getD k 0) := by
  refine ⟨?_, ?_, ?_, ?_⟩
  · unfold split_axes
    simp [hlen]
  · intro a ha
    rw [split_axes_getD old new a ha (hlen ▸ ha)]
    unfold axisSplits
    simp
  · intro a lst hlst
    by_cases ha : a < old.length
    · rw [split_axes_getD old new a ha (hlen ▸ ha)] at hlst
      unfold axisSplits at hlst
      rcases List.mem_map.mp hlst with ⟨i, _, rfl⟩
      exact pairwise_key_mergeSort (fun s : Split => s.slice.left) _
    · rw [List.getD_eq_default _ _ (by
        unfold split_axes
        simp only [List.length_map, List.length_zip]
        omega)] at hlst
      simp at hlst
  · intro a ha k hk
    have hblock : (↑(newChunkSplits old new a k) : Multiset Split)
        = ↑(blockSplits (one_axis_old_to_new (old.getD a [])
            (new.getD a [])) k) := by
      unfold newChunkSplits
      rw [split_axes_getD old new a ha (hlen ▸ ha)]
      exact axis_gather (old.getD a []) (new.getD a []) k hk
    have hperm : (newChunkSplits old new a k).Perm
        (blockSplits (one_axis_old_to_new (old.getD a []) (new.getD a [])) k) :=
      Multiset.coe_eq_coe.mp hblock
    constructor
    · rw [Multiset.coe_eq_coe.mpr (hperm.map fun s : Split => s.split_index),
        blockSplits_split_index, hperm.length_eq, blockSplits_length]
    · rw [(hperm.map fun s : Split => s.slice.size).sum_eq]
      exact blockSplits_size_sum (old.getD a []) (new.getD a []) k hk
        (hsum a ha)

/-- Witness for C2 at a concrete input: one axis, `old = (2, 2)`,
`new = (1, 3)`. -/
theorem split_axes_tiling_witness :
    (split_axes [[2, 2]] [[1, 3]]).length = [[2, 2]].length
    ∧ (∀ a, a < [[2, 2]].length →
        ((split_axes [[2, 2]] [[1, 3]]).getD a []).length
          = ([[2, 2]].getD a []).length)
    ∧ (∀ a, ∀ lst ∈ (split_axes [[2, 2]] [[1, 3]]).getD a [],
        lst.Pairwise fun s t => s.slice.left ≤ t.slice.left)
    ∧ (∀ a, a < [[2, 2]].length → ∀ k, k < ([[1, 3]].getD a []).length →
        (↑((newChunkSplits [[2, 2]] [[1, 3]] a k).map fun s => s.split_index)
            : Multiset Nat)
          = (↑(List.range (newChunkSplits [[2, 2]] [[1, 3]] a k).length)
              : Multiset Nat)
        ∧ ((newChunkSplits [[2, 2]] [[1, 3]] a k).map fun s => s.slice.size).sum
          = ([[1, 3]].getD a []).getD k 0) :=
  split_axes_tiling [[2, 2]] [[1, 3]] (by decide)
    (fun a ha => by
      have ha0 : a = 0 := by simpa using ha
      subst ha0
      decide)

/-! ## Shuffle run state machine (receive / add_partition / output paths of
DataFrameShuffleRun and ArrayRechunkRun) -/

/-- Modelled from the spec: the mutable state a `ShuffleRun` carries
(declared in `distributed/shuffle/_core.py`, which is not under src/): the
producer-id dedup set `received`, the wire-byte counter `total_recvd`, the
barrier flag `transferred`, the `closed` flag, the sticky `exception`, and —
standing for the two buffers — the sequence of disk-buffer write batches and
the sequence of comm-buffer writes.  `π` is the producer-id type (int for
tables, nd-index for arrays), `β` the opaque shard bytes, `κ` the
output-partition key type. -/
structure RunState (π β κ : Type) where
  run_id : Nat
  received : List π
  total_recvd : Nat
  transferred : Bool
  closed : Bool
  exception : Option String
  disk : List (List (κ × β))
  comm : List (List (Nat × (π × β)))
deriving DecidableEq, Repr

/-- Modelled from the spec: `raise_if_closed` (in `_core.py`) together with
the sticky-exception rule: a closed run or a latched exception makes every
further operation fail. -/
def raise_if_closed {π β κ : Type} (st : RunState π β κ) :
    Except String Unit :=
  if st.closed then .error "shuffle closed"
  else
    match st.exception with
    | some e => .error e
    | none => .ok ()

theorem raise_if_closed_ok {π β κ : Type} (st : RunState π β κ)
    (h : raise_if_closed st = .ok ()) :
    st.closed = false ∧ st.exception = none := by
  unfold raise_if_closed at h
  by_cases hc : st.closed
  · simp [hc] at h
  · cases he : st.exception with
    | some e => simp [hc, he] at h
    | none => exact ⟨by simpa using hc, rfl⟩

/-- One step of the dedup-filter loop of `_receive` (_shuffle.py:422-427,
_rechunk.py:378-385): producer ids already in `received` are skipped;
otherwise the payload joins `filtered`, the id joins `received`, and the
wire size of the element is added to `total_recvd`. -/
def receiveFilterStep {π β κ : Type} [DecidableEq π] (szof : π × β → Nat)
    (acc : List β × RunState π β κ) (d : π × β) : List β × RunState π β κ :=
  if d.1 ∈ acc.2.received then acc
  else
    (acc.1 ++ [d.2],
      { acc.2 with
          received := acc.2.received ++ [d.1],
          total_recvd := acc.2.total_recvd + szof d })

/-- Source `_receive` (DataFrameShuffleRun._receive, _shuffle.py:419;
ArrayRechunkRun._receive, _rechunk.py:375): guard, dedup-filter, and — only
when something new arrived — regroup the filtered payloads (`repart` stands
for the offloaded `_repartition_buffers` / `_repartition_shards`) and append
one batch of groups to the disk buffer. -/
def runReceive {π β κ : Type} [DecidableEq π]
    (repart : List β → List (κ × β)) (szof : π × β → Nat)
    (st : RunState π β κ) (data : List (π × β)) :
    Except String (RunState π β κ) :=
  match raise_if_closed st with
  | .error e => .error e
  | .ok _ =>
    let fs := data.foldl (receiveFilterStep szof) ([], st)
    if fs.1.isEmpty then .ok fs.2
    else .ok { fs.2 with disk := fs.2.disk ++ [repart fs.1] }

/-- Deliver the same batch `n` times in sequence. -/
def runReceiveIter {π β κ : Type} [DecidableEq π]
    (repart : List β → List (κ × β)) (szof : π × β → Nat)
    (st : RunState π β κ) (data : List (π × β)) :
    Nat → Except String (RunState π β κ)
  | 0 => .ok st
  | n + 1 =>
    match runReceive repart szof st data with
    | .error e => .error e
    | .ok st1 => runReceiveIter repart szof st1 data n

theorem runReceive_single_mem {π β κ : Type} [DecidableEq π]
    (repart : List β → List (κ × β)) (szof : π × β → Nat)
    (st : RunState π β κ) (p : π) (b : β) (st1 : RunState π β κ)
    (h : runReceive repart szof st [(p, b)] = .ok st1) :
    p ∈ st1.received ∧ st1.closed = st.closed
      ∧ st1.exception = st.exception := by
  unfold runReceive at h
  cases hg : raise_if_closed st with
  | error e => rw [hg] at h; exact absurd h (by simp)
  | ok u =>
    rw [hg] at h
    simp only [List.foldl_cons, List.foldl_nil] at h
    by_cases hp : p ∈ st.received
    · rw [show receiveFilterStep szof (([] : List β), st) (p, b) = ([], st)
        from by unfold receiveFilterStep; rw [if_pos hp]] at h
      simp at h
      exact h ▸ ⟨hp, rfl, rfl⟩
    · rw [show receiveFilterStep szof (([] : List β), st) (p, b)
        = ([b], { st with received := st.received ++ [p],
                          total_recvd := st.total_recvd + szof (p, b) })
        from by unfold receiveFilterStep; rw [if_neg hp]; rfl] at h
      rw [if_neg (by simp)] at h
      simp only [Except.ok.injEq] at h
      subst h
      exact ⟨by simp, rfl, rfl⟩

theorem runReceive_fixed {π β κ : Type} [DecidableEq π]
    (repart : List β → List (κ × β)) (szof : π × β → Nat)
    (st : RunState π β κ) (p : π) (b : β) (st1 : RunState π β κ)
    (h : runReceive repart szof st [(p, b)] = .ok st1) :
    runReceive repart szof st1 [(p, b)] = .ok st1 := by
  obtain ⟨hp, hcl, hex⟩ := runReceive_single_mem repart szof st p b st1 h
  have hok : raise_if_closed st = .ok () := by
    unfold runReceive at h
    cases hg : raise_if_closed st with
    | error e => rw [hg] at h; exact absurd h (by simp)
    | ok u => cases u; rfl
  obtain ⟨hcl0, hex0⟩ := raise_if_closed_ok st hok
  have hok1 : raise_if_closed st1 = .ok () := by
    unfold raise_if_closed
    rw [hcl, hcl0, hex, hex0]
    rfl
  unfold runReceive
  rw [hok1]
  simp only [List.foldl_cons, List.foldl_nil]
  rw [show receiveFilterStep szof (([] : List β), st1) (p, b) = ([], st1)
    from by unfold receiveFilterStep; rw [if_pos hp]]
  simp

theorem runReceiveIter_of_fixed {π β κ : Type} [DecidableEq π]
    (repart : List β → List (κ × β)) (szof : π × β → Nat)
    (st : RunState π β κ) (data : List (π × β))
    (h : runReceive repart szof st data = .ok st) (m : Nat) :
    runReceiveIter repart szof st data m = .ok st := by
  induction m with
  | zero => rfl
  | succ m ih =>
    unfold runReceiveIter
    rw [h]
    exact ih

/-- C3: Idempotence of receive.  For every run state and shard
`(producer_id, bytes)`, delivering the shard `n ≥ 1` times produces exactly
the same state — the same sequence of disk-buffer writes, the same
`received` set and the same `total_recvd` — as delivering it once, for both
run flavours (`repart` ranges over the table and the array regrouping);
every delivery after the first is filtered out because the producer id is
in `received`. -/
theorem receive_idempotent {π β κ : Type} [DecidableEq π]
    (repart : List β → List (κ × β)) (szof : π × β → Nat)
    (st : RunState π β κ) (p : π) (b : β) (n : Nat) (hn : 1 ≤ n) :
    runReceiveIter repart szof st [(p, b)] n
      = runReceive repart szof st [(p, b)]
    ∧ ∀ st1, runReceive repart szof st [(p, b)] = .ok st1 →
        p ∈ st1.received := by
  constructor
  · cases n with
    | zero => omega
    | succ m =>
      cases m with
      | zero =>
        unfold runReceiveIter
        cases h : runReceive repart szof st [(p, b)] <;> rfl
      | succ m =>
        unfold runReceiveIter
        cases h : runReceive repart szof st [(p, b)] with
        | error e => rfl
        | ok st1 =>
          exact runReceiveIter_of_fixed repart szof st1 [(p, b)]
            (runReceive_fixed repart szof st p b st1 h) (m + 1)
  · intro st1 h
    exact (runReceive_single_mem repart szof st p b st1 h).1

/-- Witness for C3: a fresh run state, three deliveries of the same shard. -/
theorem receive_idempotent_witness :
    runReceiveIter (fun bs => bs.map fun x => (0, x)) (fun _ => 1)
        (⟨1, [], 0, false, false, none, [], []⟩ : RunState Nat Nat Nat)
        [(7, 42)] 3
      = runReceive (fun bs => bs.map fun x => (0, x)) (fun _ => 1)
          (⟨1, [], 0, false, false, none, [], []⟩ : RunState Nat Nat Nat)
          [(7, 42)]
    ∧ ∀ st1, runReceive (fun bs => bs.map fun x => (0, x)) (fun _ => 1)
          (⟨1, [], 0, false, false, none, [], []⟩ : RunState Nat Nat Nat)
          [(7, 42)] = .ok st1 →
        7 ∈ st1.received :=
  receive_idempotent (fun bs => bs.map fun x => (0, x)) (fun _ => 1)
    ⟨1, [], 0, false, false, none, [], []⟩ 7 42 3 (by decide)

/-- Source `add_partition` (_shuffle.py:446, _rechunk.py:406): guard, refuse after
the barrier flag `transferred` is set, else offload the split (`splitFn`
stands for `split_by_worker`-plus-serialize resp. the nd-split closure) and
hand the per-destination payloads to the comm buffer, returning the run id.
-/
def runAddPartition {π β κ δ : Type} (splitFn : δ → π → List (Nat × (π × β)))
    (st : RunState π β κ) (data : δ) (partition_id : π) :
    Except String (RunState π β κ × Nat) :=
  match raise_if_closed st with
  | .error e => .error e
  | .ok _ =>
    if st.transferred then .error "Cannot add more partitions"
    else
      .ok ({ st with comm := st.comm ++ [splitFn data partition_id] },
        st.run_id)

/-- C6: once `transferred` is true, `add_partition` always raises — either
the closed/latched-exception guard fires or the explicit
"Cannot add more partitions" error — and, the result being an error, no
split result is written to the comm buffer and the state is unchanged. -/
theorem add_partition_after_transfer {π β κ δ : Type}
    (splitFn : δ → π → List (Nat × (π × β))) (st : RunState π β κ)
    (data : δ) (partition_id : π) (ht : st.transferred = true) :
    ∃ msg, runAddPartition splitFn st data partition_id = .error msg := by
  unfold runAddPartition
  cases hg : raise_if_closed st with
  | error e => exact ⟨e, rfl⟩
  | ok u =>
    cases u
    exact ⟨"Cannot add more partitions", by rw [ht]; rfl⟩

/-- Witness for C6: a barriered run refuses a new partition. -/
theorem add_partition_after_transfer_witness :
    ∃ msg, runAddPartition (fun (d : Nat) (p : Nat) => [(0, (p, d))])
        (⟨1, [], 0, true, false, none, [], []⟩ : RunState Nat Nat Nat) 5 0
      = .error msg :=
  add_partition_after_transfer (fun d p => [(0, (p, d))])
    ⟨1, [], 0, true, false, none, [], []⟩ 5 0 rfl

/-! ## Tabular output path (`get_output_partition`, _shuffle.py:464) -/

/-- A dataframe as schema plus rows; `meta` is the empty template frame and
`copy()` of a pure value is the value itself. -/
structure DF where
  schema : List String
  rows : List (List Nat)
deriving DecidableEq, Repr

def DF.copy (m : DF) : DF := m

/-- Modelled from the spec: `_read_from_disk` (in `_core.py`) returns the
concatenation of everything written under the key, and raises `KeyError`
(`none` here) when the output partition never received a contribution. -/
def diskRead {π β : Type} (st : RunState π β Nat) (k : Nat) : Option (List β) :=
  let contribs := (st.disk.flatten.filter fun e => e.1 == k).map Prod.snd
  if contribs.isEmpty then none else some contribs

/-- Source `DataFrameShuffleRun.get_output_partition` (_shuffle.py:464): guard,
assert the barrier has been crossed, ensure the local worker owns the
output (else Reschedule, modelled from the spec as `_ensure_output_worker`
lives in `_core.py`), then read and convert from disk — and on `KeyError`
return `meta.copy()` instead. -/
def runGetOutputPartitionDF {π β : Type} (convert : List β → DF → DF)
    (worker_for : List (Nat × Nat)) (local_address : Nat)
    (st : RunState π β Nat) (partition_id : Nat) (meta : DF) :
    Except String DF :=
  match raise_if_closed st with
  | .error e => .error e
  | .ok _ =>
    if st.transferred = false then
      .error "`get_output_partition` called before barrier task"
    else
      match worker_for.lookup partition_id with
      | none => .error "KeyError: worker_for"
      | some w =>
        if w ≠ local_address then .error "Reschedule"
        else
          match diskRead st partition_id with
          | none => .ok meta.copy
          | some datas => .ok (convert datas meta)

/-- C9: tabular absent-key output.  On a barriered run, on the owning
worker, when the disk read for the output partition raises `KeyError`
because nothing was ever written for it, `get_output_partition` returns
`meta.copy()` — an empty frame with exactly the schema of `meta` — instead
of raising. -/
theorem get_output_partition_absent_key {π β : Type}
    (convert : List β → DF → DF) (worker_for : List (Nat × Nat))
    (local_address : Nat) (st : RunState π β Nat) (partition_id : Nat)
    (meta : DF)
    (hcl : st.closed = false) (hex : st.exception = none)
    (ht : st.transferred = true)
    (hown : worker_for.lookup partition_id = some local_address)
    (habsent : diskRead st partition_id = none)
    (hmeta : meta.rows = []) :
    runGetOutputPartitionDF convert worker_for local_address st partition_id
        meta = .ok meta.copy
    ∧ (DF.copy meta).schema = meta.schema ∧ (DF.copy meta).rows = [] := by
  refine ⟨?_, rfl, hmeta⟩
  unfold runGetOutputPartitionDF
  rw [show raise_if_closed st = .ok () from by
      unfold raise_if_closed; rw [hcl, hex]; rfl,
    ht, hown, habsent]
  simp

/-- Witness for C9: barriered run, empty disk, owning worker. -/
theorem get_output_partition_absent_key_witness :
    runGetOutputPartitionDF (fun _ m => m) [(0, 3)] 3
        (⟨1, [], 0, true, false, none, [], []⟩ : RunState Nat Nat Nat) 0
        ⟨["a", "b"], []⟩ = .ok (DF.copy ⟨["a", "b"], []⟩)
    ∧ (DF.copy ⟨["a", "b"], []⟩).schema = (⟨["a", "b"], []⟩ : DF).schema
    ∧ (DF.copy ⟨["a", "b"], []⟩).rows = [] :=
  get_output_partition_absent_key (fun _ m => m) [(0, 3)] 3
    ⟨1, [], 0, true, false, none, [], []⟩ 0 ⟨["a", "b"], []⟩
    rfl rfl rfl (by decide) (by decide) rfl

/-! ## Worker plugin registry (src/distributed/shuffle/_worker_plugin.py) -/

/-- A run as seen by the registry: its run id and its sticky exception
(the rest of `ShuffleRun` is irrelevant to routing). -/
structure RunRef where
  run_id : Nat
  exception : Option String
deriving DecidableEq, Repr

inductive GetRunError where
  | keyError
  | staleRun (req cur : Nat)
  | invalidRun (req cur : Nat)
  | runFailed (msg : String)
deriving DecidableEq, Repr

/-- The run installed for `shuffle_id` after the optional refresh
(_worker_plugin.py:180-184): refresh when the id is absent or the present
run is older than the requested `run_id`.  `refreshed` is the run the
scheduler-backed `_refresh_shuffle` installs (external oracle; its own
failure path only raises, so a successful refresh is modelled). -/
def resolvedRun (shuffles : List (String × RunRef)) (refreshed : RunRef)
    (shuffle_id : String) (run_id : Nat) : RunRef :=
  match shuffles.lookup shuffle_id with
  | none => refreshed
  | some s => if s.run_id < run_id then refreshed else s

/-- Source `_get_shuffle_run` (_worker_plugin.py:159-193): resolve (with optional
refresh), then raise on a stale `run_id` (installed run newer than
requested), an invalid `run_id` (installed run older than requested), or a
latched exception; otherwise return the run. -/
def get_shuffle_run (shuffles : List (String × RunRef)) (refreshed : RunRef)
    (shuffle_id : String) (run_id : Nat) : Except GetRunError RunRef :=
  if run_id < (resolvedRun shuffles refreshed shuffle_id run_id).run_id then
    .error (.staleRun run_id
      (resolvedRun shuffles refreshed shuffle_id run_id).run_id)
  else if (resolvedRun shuffles refreshed shuffle_id run_id).run_id
      < run_id then
    .error (.invalidRun run_id
      (resolvedRun shuffles refreshed shuffle_id run_id).run_id)
  else
    match (resolvedRun shuffles refreshed shuffle_id run_id).exception with
    | some m => .error (.runFailed m)
    | none => .ok (resolvedRun shuffles refreshed shuffle_id run_id)

/-- C4: stale-run rejection.  If after the optional refresh the run
installed for the shuffle id has a `run_id` strictly greater than the
requested one, `_get_shuffle_run` raises (the stale request is rejected);
and it never returns a run whose `run_id` differs from the requested one. -/
theorem get_shuffle_run_stale (shuffles : List (String × RunRef))
    (refreshed : RunRef) (shuffle_id : String) (run_id : Nat) :
    (run_id < (resolvedRun shuffles refreshed shuffle_id run_id).run_id →
      get_shuffle_run shuffles refreshed shuffle_id run_id
        = .error (.staleRun run_id
            (resolvedRun shuffles refreshed shuffle_id run_id).run_id))
    ∧ ∀ s, get_shuffle_run shuffles refreshed shuffle_id run_id = .ok s →
        s.run_id = run_id := by
  constructor
  · intro hlt
    unfold get_shuffle_run
    rw [if_pos hlt]
  · intro s hs
    unfold get_shuffle_run at hs
    by_cases h1 : run_id
        < (resolvedRun shuffles refreshed shuffle_id run_id).run_id
    · rw [if_pos h1] at hs
      exact absurd hs (by simp)
    · rw [if_neg h1] at hs
      by_cases h2 : (resolvedRun shuffles refreshed shuffle_id run_id).run_id
          < run_id
      · rw [if_pos h2] at hs
        exact absurd hs (by simp)
      · rw [if_neg h2] at hs
        cases he : (resolvedRun shuffles refreshed shuffle_id run_id).exception
          with
        | some m => rw [he] at hs; simp at hs
        | none =>
          rw [he] at hs
          simp only [Except.ok.injEq] at hs
          subst hs
          omega

/-- Witness for C4: a registered run with id 5 rejects the stale request 3.
-/
theorem get_shuffle_run_stale_witness :
    get_shuffle_run [("s", ⟨5, none⟩)] ⟨9, none⟩ "s" 3
      = .error (.staleRun 3 5) :=
  (get_shuffle_run_stale [("s", ⟨5, none⟩)] ⟨9, none⟩ "s" 3).1 (by decide)

/-- Registry-plus-cleanup state for `shuffle_fail`: the `shuffles` map and
the runs handed to `_close_shuffle_run` via
`worker._ongoing_background_tasks.call_soon`. -/
structure PluginState where
  shuffles : List (String × RunRef)
  scheduledClose : List RunRef
deriving DecidableEq, Repr

/-- Modelled from the spec: `ShuffleRun.fail` (in `_core.py`) latches the
exception on the run. -/
def RunRef.fail (r : RunRef) (msg : String) : RunRef :=
  { r with exception := some msg }

/-- Source `shuffle_fail` (_worker_plugin.py:107-125): if a run is registered under
`shuffle_id` and its run id matches, pop it from the registry, latch
`RuntimeError(message)` on it and schedule its asynchronous close;
otherwise return with no change. -/
def shuffle_fail (st : PluginState) (shuffle_id : String) (run_id : Nat)
    (message : String) : PluginState :=
  match st.shuffles.lookup shuffle_id with
  | none => st
  | some sh =>
    if sh.run_id ≠ run_id then st
    else
      { shuffles := st.shuffles.eraseP fun e => e.1 == shuffle_id,
        scheduledClose := st.scheduledClose ++ [sh.fail message] }

/-- C5: `shuffle_fail` behaviour.  On a run-id match the run is removed from
the registry, a sticky exception carrying the message is latched on it, and
its close is scheduled; when no run is registered under the id, or the
registered run id differs, the state is returned completely unchanged. -/
theorem shuffle_fail_spec (st : PluginState) (shuffle_id : String)
    (run_id : Nat) (message : String) :
    (∀ sh, st.shuffles.lookup shuffle_id = some sh → sh.run_id = run_id →
      shuffle_fail st shuffle_id run_id message
          = { shuffles := st.shuffles.eraseP fun e => e.1 == shuffle_id,
              scheduledClose := st.scheduledClose ++ [sh.fail message] }
        ∧ (sh.fail message).exception = some message)
    ∧ (st.shuffles.lookup shuffle_id = none →
        shuffle_fail st shuffle_id run_id message = st)
    ∧ (∀ sh, st.shuffles.lookup shuffle_id = some sh → sh.run_id ≠ run_id →
        shuffle_fail st shuffle_id run_id message = st) := by
  refine ⟨?_, ?_, ?_⟩
  · intro sh hsh hid
    refine ⟨?_, rfl⟩
    unfold shuffle_fail
    rw [hsh]
    simp [hid]
  · intro hnone
    unfold shuffle_fail
    rw [hnone]
  · intro sh hsh hid
    unfold shuffle_fail
    rw [hsh]
    simp [hid]

/-- Witness for C5: matching id removes and latches; mismatching id is a
no-op. -/
theorem shuffle_fail_spec_witness :
    ((⟨[("s", ⟨4, none⟩)], []⟩ : PluginState).shuffles.lookup "s"
        = some ⟨4, none⟩ →
      (4 : Nat) = 4 →
      shuffle_fail ⟨[("s", ⟨4, none⟩)], []⟩ "s" 4 "boom"
          = { shuffles := [],
              scheduledClose := [RunRef.fail ⟨4, none⟩ "boom"] }
        ∧ (RunRef.fail ⟨4, none⟩ "boom").exception = some "boom")
    ∧ shuffle_fail ⟨[("s", ⟨4, none⟩)], []⟩ "s" 9 "boom"
        = ⟨[("s", ⟨4, none⟩)], []⟩ := by
  constructor
  · intro h1 h2
    have h := (shuffle_fail_spec ⟨[("s", ⟨4, none⟩)], []⟩ "s" 4 "boom").1
      ⟨4, none⟩ h1 h2
    exact ⟨h.1.trans (by decide), h.2⟩
  · exact (shuffle_fail_spec ⟨[("s", ⟨4, none⟩)], []⟩ "s" 9 "boom").2.2
      ⟨4, none⟩ (by decide) (by decide)

/-! ## Array shard codec (`convert_chunk`, _rechunk.py:269) -/

/-- Python dict assignment `shards[index] = shard`: overwrite in place,
else append. -/
def dinsert {V : Type} (l : List (List Nat × V)) (k : List Nat) (v : V) :
    List (List Nat × V) :=
  match l with
  | [] => [(k, v)]
  | e :: rest => if e.1 = k then (k, v) :: rest else e :: dinsert rest k v

/-- The decode loop `while file.tell() < len(data): for index, shard in
pickle.load(file): shards[index] = shard`: a blob is its list of pickled
blocks, each a list of `(sub-index, shard)` pairs; the decoder drains every
block up to the end of the buffer. -/
def buildShards {V : Type} (blocks : List (List (List Nat × V))) :
    List (List Nat × V) :=
  blocks.foldl (fun acc blk => blk.foldl (fun a p => dinsert a p.1 p.2) acc) []

/-- Python `subshape = [max(dim) + 1 for dim in zip(*shards.keys())]`: per-axis
maxima plus one, `zip(*...)` truncating at the shortest key. -/
def subshapeOf (keys : List (List Nat)) : List Nat :=
  match keys with
  | [] => []
  | k0 :: _ =>
    (List.range (keys.foldl (fun m k => min m k.length) k0.length)).map
      fun ax => (keys.map fun k => k.getD ax 0).foldl max 0 + 1

/-- Source `convert_chunk` (_rechunk.py:269), with the external
`dask.array.core.concatenate3` kept abstract as `concat3`, consuming the
sub-lattice shape and the cell assignment (`rec_cat_arg`); the
`assert len(shards) == np.prod(subshape)` failure is `none`. -/
def convert_chunk {V W : Type} (concat3 : List Nat → (List Nat → Option V) → W)
    (blocks : List (List (List Nat × V))) : Option W :=
  let shards := buildShards blocks
  let subshape := subshapeOf (shards.map Prod.fst)
  if shards.length = subshape.prod then
    some (concat3 subshape fun idx => shards.lookup idx)
  else none

theorem buildShards_flatten {V : Type} (blocks : List (List (List Nat × V))) :
    buildShards blocks
      = blocks.flatten.foldl (fun a p => dinsert a p.1 p.2) [] := by
  unfold buildShards
  rw [List.foldl_flatten]

/-- Result of `convert_chunk` depends only on the concatenation of the decoded
blocks, not on how pairs are grouped into blocks. -/
theorem convert_chunk_flatten {V W : Type}
    (concat3 : List Nat → (List Nat → Option V) → W)
    (blocks : List (List (List Nat × V))) :
    convert_chunk concat3 blocks = convert_chunk concat3 [blocks.flatten] := by
  unfold convert_chunk
  rw [buildShards_flatten, buildShards_flatten]
  simp

theorem dinsert_fresh {V : Type} (acc : List (List Nat × V)) (k : List Nat)
    (v : V) (hk : k ∉ acc.map Prod.fst) :
    dinsert acc k v = acc ++ [(k, v)] := by
  induction acc with
  | nil => rfl
  | cons e rest ih =>
    simp only [List.map_cons, List.mem_cons] at hk
    push_neg at hk
    unfold dinsert
    rw [if_neg (fun h => hk.1 h.symm), ih hk.2]
    rfl

theorem foldl_dinsert_nodup {V : Type} (pairs acc : List (List Nat × V))
    (hnd : (pairs.map Prod.fst).Nodup)
    (hdisj : ∀ p ∈ pairs, p.1 ∉ acc.map Prod.fst) :
    pairs.foldl (fun a p => dinsert a p.1 p.2) acc = acc ++ pairs := by
  induction pairs generalizing acc with
  | nil => simp
  | cons p rest ih =>
    have hnd' : (p.1 :: rest.map Prod.fst).Nodup := by simpa using hnd
    rcases List.nodup_cons.mp hnd' with ⟨hp1, hrest⟩
    simp only [List.foldl_cons]
    rw [dinsert_fresh acc p.1 p.2 (hdisj p (List.mem_cons_self _ _))]
    rw [ih (acc ++ [(p.1, p.2)]) hrest
      (fun q hq => by
        simp only [List.map_append, List.mem_append, List.map_cons,
          List.map_nil, List.mem_singleton]
        push_neg
        refine ⟨hdisj q (List.mem_cons_of_mem _ hq), ?_⟩
        intro hqp
        exact hp1 (hqp ▸ List.mem_map_of_mem Prod.fst hq))]
    simp

theorem buildShards_of_nodup {V : Type} (blocks : List (List (List Nat × V)))
    (hnd : (blocks.flatten.map Prod.fst).Nodup) :
    buildShards blocks = blocks.flatten := by
  rw [buildShards_flatten]
  simpa using foldl_dinsert_nodup blocks.flatten [] hnd (by simp)

/-- All points of the dense sub-lattice `[0, dims_0) × ... × [0, dims_last)`
in row-major order. -/
def latticePts : List Nat → List (List Nat)
  | [] => [[]]
  | d :: rest => (List.range d).flatMap fun i => (latticePts rest).map (i :: ·)

theorem latticePts_length (dims : List Nat) :
    (latticePts dims).length = dims.prod := by
  induction dims with
  | nil => rfl
  | cons d rest ih =>
    have hconst : ∀ (m c : Nat), ((List.range m).map fun _ => c).sum = m * c := by
      intro m c
      induction m with
      | zero => simp
      | succ m ihm =>
        rw [List.range_succ]
        simp [ihm, Nat.succ_mul]
    simp only [latticePts, List.length_flatMap, Function.comp_def,
      List.length_map, ih, List.prod_cons]
    exact hconst d rest.prod

theorem latticePts_nodup (dims : List Nat) : (latticePts dims).Nodup := by
  induction dims with
  | nil => simp [latticePts]
  | cons d rest ih =>
    unfold latticePts
    rw [List.nodup_flatMap]
    refine ⟨fun i _ => ih.map fun a b hab => by simpa using hab, ?_⟩
    refine List.Pairwise.imp ?_ (List.nodup_range d)
    intro i j hij
    intro x hxi hxj
    rcases List.mem_map.mp hxi with ⟨t, _, rfl⟩
    rcases List.mem_map.mp hxj with ⟨t', _, he⟩
    exact hij (by injection he with h1 _; exact h1.symm)

theorem latticePts_mem (dims : List Nat) (idx : List Nat) :
    idx ∈ latticePts dims ↔
      idx.length = dims.length
      ∧ ∀ ax, ax < dims.length → idx.getD ax 0 < dims.getD ax 0 := by
  induction dims generalizing idx with
  | nil =>
    simp only [latticePts, List.mem_singleton, List.length_nil]
    constructor
    · rintro rfl
      exact ⟨rfl, fun ax hax => by omega⟩
    · rintro ⟨h1, _⟩
      exact List.eq_nil_of_length_eq_zero h1
  | cons d rest ih =>
    unfold latticePts
    rw [List.mem_flatMap]
    constructor
    · rintro ⟨i, hi, hmem⟩
      rcases List.mem_map.mp hmem with ⟨t, ht, rfl⟩
      rcases (ih t).mp ht with ⟨hlen, hbound⟩
      refine ⟨by simpa using hlen, ?_⟩
      intro ax hax
      cases ax with
      | zero => simpa using List.mem_range.mp hi
      | succ ax =>
        simp only [List.getD_cons_succ]
        exact hbound ax (by simpa using hax)
    · rintro ⟨hlen, hbound⟩
      cases idx with
      | nil => simp at hlen
      | cons i t =>
        refine ⟨i, List.mem_range.mpr (by simpa using hbound 0 (by simp)), ?_⟩
        refine List.mem_map.mpr ⟨t, (ih t).mpr ⟨by simpa using hlen, ?_⟩, rfl⟩
        intro ax hax
        simpa using hbound (ax + 1) (by simpa using hax)

theorem foldl_min_const (keys : List (List Nat)) (n : Nat)
    (h : ∀ k ∈ keys, k.length = n) :
    keys.foldl (fun m k => min m k.length) n = n := by
  induction keys with
  | nil => rfl
  | cons k t ih =>
    simp only [List.foldl_cons]
    rw [h k (List.mem_cons_self _ _), Nat.min_self]
    exact ih fun k' hk' => h k' (List.mem_cons_of_mem _ hk')

theorem le_foldl_max (l : List Nat) (a : Nat) : a ≤ l.foldl max a := by
  induction l generalizing a with
  | nil => exact Nat.le_refl a
  | cons x t ih =>
    simp only [List.foldl_cons]
    exact Nat.le_trans (Nat.le_max_left a x) (ih (max a x))

theorem mem_le_foldl_max (l : List Nat) (a x : Nat) (hx : x ∈ l) :
    x ≤ l.foldl max a := by
  induction l generalizing a with
  | nil => simp at hx
  | cons y t ih =>
    simp only [List.foldl_cons]
    rcases List.mem_cons.mp hx with rfl | hxt
    · exact Nat.le_trans (Nat.le_max_right a x) (le_foldl_max t (max a x))
    · exact ih (max a y) hxt

theorem subshapeOf_uniform (keys : List (List Nat)) (n : Nat)
    (hne : keys ≠ []) (hdim : ∀ k ∈ keys, k.length = n) :
    (subshapeOf keys).length = n
    ∧ ∀ k ∈ keys, ∀ ax, ax < n →
        k.getD ax 0 < (subshapeOf keys).getD ax 0 := by
  cases keys with
  | nil => exact absurd rfl hne
  | cons k0 t =>
    have hk0 : k0.length = n := hdim k0 (List.mem_cons_self _ _)
    have hmin : (k0 :: t).foldl (fun m k => min m k.length) k0.length = n :=
      hk0 ▸ foldl_min_const (k0 :: t) k0.length
        (fun k hk => (hdim k hk).trans hk0.symm)
    constructor
    · simp only [subshapeOf]
      rw [hmin]
      simp
    · intro k hk ax hax
      simp only [subshapeOf]
      rw [hmin, getD_map_range _ _ ax 0 hax]
      have := mem_le_foldl_max ((k0 :: t).map fun k => k.getD ax 0) 0
        (k.getD ax 0) (List.mem_map_of_mem _ hk)
      omega

/-- C7: block-concatenation homomorphism of the array codec.  For blobs
`b1`, `b2` whose pairs have pairwise-distinct sub-indices of uniform
dimension jointly forming the full dense sub-lattice `[0, max+1)` on every
axis, `convert_chunk (b1 ++ b2)` equals `convert_chunk` of a single blob
holding all the pairs — the decoder drains every block, and the result
depends only on the sub-index-to-shard mapping, not the grouping into
blocks — and the dense-lattice assertion succeeds (`isSome`). -/
theorem convert_chunk_concat {V W : Type}
    (concat3 : List Nat → (List Nat → Option V) → W)
    (b1 b2 : List (List (List Nat × V))) (n : Nat)
    (hnodup : ((b1 ++ b2).flatten.map Prod.fst).Nodup)
    (hne : (b1 ++ b2).flatten ≠ [])
    (hdim : ∀ key ∈ (b1 ++ b2).flatten.map Prod.fst, key.length = n)
    (hdense : ∀ idx : List Nat, idx.length = n →
      (∀ ax, ax < n → idx.getD ax 0
        < (subshapeOf ((b1 ++ b2).flatten.map Prod.fst)).getD ax 0) →
      idx ∈ (b1 ++ b2).flatten.map Prod.fst) :
    convert_chunk concat3 (b1 ++ b2)
        = convert_chunk concat3 [b1.flatten ++ b2.flatten]
    ∧ (convert_chunk concat3 (b1 ++ b2)).isSome := by
  have hflat : (b1 ++ b2).flatten = b1.flatten ++ b2.flatten :=
    List.flatten_append b1 b2
  constructor
  · rw [convert_chunk_flatten concat3 (b1 ++ b2), hflat]
  · have hbuild : buildShards (b1 ++ b2) = (b1 ++ b2).flatten :=
      buildShards_of_nodup (b1 ++ b2) hnodup
    set keys := (b1 ++ b2).flatten.map Prod.fst with hkeys
    have hkne : keys ≠ [] := by
      intro h
      exact hne (List.map_eq_nil_iff.mp h)
    obtain ⟨hslen, hsbound⟩ := subshapeOf_uniform keys n hkne hdim
    have hsub1 : keys ⊆ latticePts (subshapeOf keys) := by
      intro k hk
      rw [latticePts_mem]
      exact ⟨(hdim k hk).trans hslen.symm,
        fun ax hax => hsbound k hk ax (by omega)⟩
    have hsub2 : latticePts (subshapeOf keys) ⊆ keys := by
      intro idx hidx
      rcases (latticePts_mem _ idx).mp hidx with ⟨hlen, hbound⟩
      exact hdense idx (hlen.trans hslen)
        (fun ax hax => hbound ax (by omega))
    have hcard : keys.length = (latticePts (subshapeOf keys)).length := by
      have h1 : keys.toFinset = (latticePts (subshapeOf keys)).toFinset := by
        apply Finset.ext
        intro x
        simp only [List.mem_toFinset]
        exact ⟨fun h => hsub1 h, fun h => hsub2 h⟩
      rw [← List.toFinset_card_of_nodup hnodup,
        ← List.toFinset_card_of_nodup (latticePts_nodup _), h1]
    unfold convert_chunk
    rw [hbuild]
    rw [if_pos (by
      rw [← hkeys]
      rw [show (b1 ++ b2).flatten.length = keys.length from
        (List.length_map _ _).symm]
      rw [hcard, latticePts_length])]
    simp

/-- Witness for C7: two one-pair blobs jointly covering the lattice
`[0, 2)`. -/
theorem convert_chunk_concat_witness :
    convert_chunk (fun dims cells => (dims, cells [0]))
        (([[([0], 10)]] : List (List (List Nat × Nat))) ++ [[([1], 11)]])
      = convert_chunk (fun dims cells => (dims, cells [0]))
          [([[([0], 10)]] : List (List (List Nat × Nat))).flatten
            ++ ([[([1], 11)]] : List (List (List Nat × Nat))).flatten]
    ∧ (convert_chunk (fun dims cells => (dims, cells [0]))
        (([[([0], 10)]] : List (List (List Nat × Nat)))
          ++ [[([1], 11)]])).isSome :=
  convert_chunk_concat (V := Nat)
    (fun dims cells => (dims, cells [0]))
    [[([0], 10)]] [[([1], 11)]] 1
    (by decide) (by decide)
    (by intro key hk; fin_cases hk <;> rfl)
    (by
      intro idx h1 h2
      match idx, h1 with
      | [x], _ =>
        have hx : x < 2 := h2 0 (by omega)
        interval_cases x <;> decide)

/-! ## Array add_partition split payloads (_rechunk.py:406-441) -/

/-- Python `itertools.product` over per-axis lists, row-major. -/
def cartProd {α : Type} : List (List α) → List (List α)
  | [] => [[]]
  | l :: ls => l.flatMap fun x => (cartProd ls).map (x :: ·)

theorem cartProd_mem {α : Type} (ls : List (List α)) (nds : List α)
    (h : nds ∈ cartProd ls) : ∀ x ∈ nds, ∃ l ∈ ls, x ∈ l := by
  induction ls generalizing nds with
  | nil =>
    simp only [cartProd, List.mem_singleton] at h
    subst h
    simp
  | cons l t ih =>
    unfold cartProd at h
    rw [List.mem_flatMap] at h
    rcases h with ⟨x0, hx0, hmem⟩
    rcases List.mem_map.mp hmem with ⟨tl, htl, rfl⟩
    intro x hx
    rcases List.mem_cons.mp hx with rfl | hxt
    · exact ⟨l, List.mem_cons_self _ _, hx0⟩
    · rcases ih tl htl x hxt with ⟨l', hl', hxl'⟩
      exact ⟨l', List.mem_cons_of_mem _ hl', hxl'⟩

theorem splitsForOldChunk_slice_pos (oldAx newAx : List Nat) (i : Nat) :
    ∀ s ∈ splitsForOldChunk (one_axis_old_to_new oldAx newAx) i,
      0 < s.slice.size := by
  intro s hs
  unfold splitsForOldChunk at hs
  rcases List.mem_flatten.mp hs with ⟨blk, hblk, hsblk⟩
  rcases List.mem_map.mp hblk with ⟨⟨k, pieces⟩, hkp, rfl⟩
  rcases List.mem_filterMap.mp hsblk with ⟨sp, hsp, hspx⟩
  have hsp2 : sp.2 ∈ pieces := by
    have h := List.mem_enum (x := sp.2) (i := sp.1) hsp
    exact h.2 ▸ List.getElem_mem h.1
  have hmem : pieces ∈ one_axis_old_to_new oldAx newAx := by
    have h := List.mem_enum hkp
    exact h.2 ▸ List.getElem_mem h.1
  rcases List.mem_map.mp hmem with ⟨k', _, rfl⟩
  have hpos := pieces1d_size_pos oldAx 0 0 _ _ sp.2 hsp2
  by_cases hcond : sp.2.1 = i
  · rw [if_pos hcond] at hspx
    simp only [Option.some.injEq] at hspx
    subst hspx
    exact hpos
  · rw [if_neg hcond] at hspx
    exact absurd hspx (by simp)

theorem axisSplits_getD_slice_pos (oldAx newAx : List Nat) (i : Nat) :
    ∀ s ∈ (axisSplits oldAx newAx).getD i [], 0 < s.slice.size := by
  intro s hs
  by_cases hi : i < oldAx.length
  · unfold axisSplits at hs
    rw [getD_map_range _ _ i [] hi] at hs
    exact splitsForOldChunk_slice_pos oldAx newAx i s
      (List.mem_mergeSort.mp hs)
  · rw [List.getD_eq_default _ _ (by
      unfold axisSplits
      simp only [List.length_map, List.length_range]
      omega)] at hs
    simp at hs

/-- The split closure of `ArrayRechunkRun.add_partition` (_rechunk.py:411-437):
`ndsplits = product(*(axis[i] for axis, i in zip(self.split_axes,
partition_id)))`; each element is unzipped (`zip(*ndsplit)`) into the
destination chunk index tuple, the sub-index (shard index) tuple and the n-D
slice; the shard is `data[ndslice]`, kept abstract as its slice list.  Every
element of the Cartesian product is appended — this code contains no
emptiness check. -/
def array_split_entries (old new : List (List Nat))
    (partition_id : List Nat) : List (List Nat × (List Nat × List Sl)) :=
  (cartProd (((split_axes old new).zip partition_id).map
      fun ai => ai.1.getD ai.2 [])).map
    fun nds =>
      (nds.map Split.chunk_index,
        (nds.map Split.split_index, nds.map Split.slice))

/-- Grouping `out[self.worker_for[chunk_index]]`: the payload destined for worker
`w`. -/
def array_payload_for_worker (worker_for : List Nat → Nat)
    (old new : List (List Nat)) (partition_id : List Nat) (w : Nat) :
    List (List Nat × (List Nat × List Sl)) :=
  (array_split_entries old new partition_id).filter
    fun e => worker_for e.1 == w

/-- C8: empty-split omission.  Every entry of every per-destination-worker
payload built by `add_partition` selects a positive number of elements of
the input brick (the per-axis slice sizes of its n-D slice multiply to a
positive count): no `(chunk_index, (shard_index, empty shard))` entry is
ever serialized or transmitted.  (The modelled `old_to_new` tiling emits no
empty slices, so the omission of empty splits holds because none arise.) -/
theorem array_payload_entries_nonempty (worker_for : List Nat → Nat)
    (old new : List (List Nat)) (partition_id : List Nat) (w : Nat) :
    ∀ e ∈ array_payload_for_worker worker_for old new partition_id w,
      0 < (e.2.2.map Sl.size).prod := by
  intro e he
  have he' : e ∈ array_split_entries old new partition_id :=
    List.mem_of_mem_filter he
  rcases List.mem_map.mp he' with ⟨nds, hnds, rfl⟩
  refine List.prod_pos ?_
  intro sz hsz
  rw [List.map_map] at hsz
  rcases List.mem_map.mp hsz with ⟨s, hs, rfl⟩
  rcases cartProd_mem _ nds hnds s hs with ⟨lst, hlst, hslst⟩
  rcases List.mem_map.mp hlst with ⟨ai, hai, rfl⟩
  have hax : ai.1 ∈ split_axes old new :=
    (List.of_mem_zip (show (ai.1, ai.2) ∈ _ from hai)).1
  unfold split_axes at hax
  rcases List.mem_map.mp hax with ⟨axp, _, heq⟩
  rw [← heq] at hslst
  exact axisSplits_getD_slice_pos axp.1 axp.2 ai.2 s hslst

/-- Witness for C8: a 1-D brick of two elements split into one nonempty
shard. -/
theorem array_payload_entries_nonempty_witness :
    0 < (([(⟨0, 2⟩ : Sl)]).map Sl.size).prod :=
  array_payload_entries_nonempty (fun _ => 0) [[2]] [[2]] [0] 0
    ([0], ([0], [⟨0, 2⟩]))
    (by
      have hpl : array_payload_for_worker (fun _ => 0) [[2]] [[2]] [0] 0
          = [([0], ([0], [⟨0, 2⟩]))] := by
        simp [array_payload_for_worker, array_split_entries, split_axes,
          axisSplits, splitsForOldChunk, one_axis_old_to_new, pieces1d,
          chunkOffset, cartProd, show List.range 1 = [0] by decide]
      rw [hpl]
      exact List.mem_singleton.mpr rfl)

/-! ## rechunk_p2p empty fast path (_rechunk.py:172-208) -/

/-- A dask array as its shape, chunking and an opaque dtype tag. -/
structure DArray where
  shape : List Nat
  chunks : List (List Nat)
  dtypeTag : Nat
deriving DecidableEq, Repr

/-- The result of `rechunk_p2p`: either the `da.empty` fast-path result or
the task graph with its transfer keys, one barrier, and unpack keys. -/
inductive RechunkOut where
  | emptyArray (shape : List Nat) (chunks : List (List Nat)) (dtypeTag : Nat)
  | graph (transferKeys unpackKeys : List (List Nat))
deriving DecidableEq, Repr

/-- Source `rechunk_p2p` (_rechunk.py:172-208): when `x.size == 0` return an empty
array of the same shape and dtype with the requested chunks, building no
tasks; otherwise build one transfer task per input chunk index
(`np.ndindex` over per-axis chunk counts), one barrier task, and one unpack
task per output chunk index. -/
def rechunk_p2p (x : DArray) (chunks : List (List Nat)) : RechunkOut :=
  if x.shape.prod = 0 then .emptyArray x.shape chunks x.dtypeTag
  else
    .graph (cartProd (x.chunks.map fun dim => List.range dim.length))
      (cartProd (chunks.map fun dim => List.range dim.length))

/-- Number of tasks the result places in the graph (transfers + barrier +
unpacks; the fast path places none). -/
def numTasks : RechunkOut → Nat
  | .emptyArray _ _ _ => 0
  | .graph transfers unpacks => transfers.length + 1 + unpacks.length

/-- C10: empty-array fast path.  For `x.size = 0` (product of the shape),
`rechunk_p2p` returns the empty array of the same shape and dtype with the
requested chunks directly, and builds no transfer, barrier, or unpack
tasks. -/
theorem rechunk_p2p_empty (x : DArray) (chunks : List (List Nat))
    (h : x.shape.prod = 0) :
    rechunk_p2p x chunks = .emptyArray x.shape chunks x.dtypeTag
    ∧ numTasks (rechunk_p2p x chunks) = 0 := by
  have h1 : rechunk_p2p x chunks = .emptyArray x.shape chunks x.dtypeTag := by
    unfold rechunk_p2p
    rw [if_pos h]
  exact ⟨h1, by rw [h1]; rfl⟩

/-- Witness for C10: a `(0, 2)`-shaped array. -/
theorem rechunk_p2p_empty_witness :
    rechunk_p2p ⟨[0, 2], [[0], [2]], 7⟩ [[0], [1, 1]]
        = .emptyArray [0, 2] [[0], [1, 1]] 7
    ∧ numTasks (rechunk_p2p ⟨[0, 2], [[0], [2]], 7⟩ [[0], [1, 1]]) = 0 :=
  rechunk_p2p_empty ⟨[0, 2], [[0], [2]], 7⟩ [[0], [1, 1]] (by decide)

end P2P
